import Mathlib

/-!
Shallow embedding of `mdx97/smart-search` (`src/lib.rs`), a cache-aware
search over a sorted collection, together with proofs about it.

The Rust source exposes
  * `find`                 — the cache-aware dispatcher,
  * `find_jump`            — jump search with the computed optimal stride,
and internally
  * `find_jump_with_size`  — the jump-search loop,
  * `linear_search`        — linear scan of a half-open index interval,
  * `get_optimal_jump_size` — the stride, `sqrt` of the length.

Vectors become `List α` over a `LinearOrder`; `usize` becomes `Nat`;
`Option<usize>` becomes `Option Nat`.  The `while` loop of the jump search
is embedded with explicit fuel (`none` = the fuel ran out, i.e. the loop is
still running after that many iterations), because for stride `0` on a
non-empty collection the source loop does not terminate; every call the
program actually makes is proved to finish within fuel `length + 1`.
-/

section Embedding

variable {α : Type} [LinearOrder α]

/-- Model of `Iterator::position`: index of the first element satisfying `p`. -/
def position (p : α → Bool) : List α → Option Nat
  | [] => none
  | a :: as => if p a then some 0 else (position p as).map (· + 1)

/-- Embedding of `linear_search` (src/lib.rs:50-57): scan the slice
`collection[left..right]` for the first element equal to `item` and return
its index in the whole collection.  The Lean slice `(drop left).take
(right - left)` is total; the Rust slice's panic condition
(`left ≤ right ≤ len` violated) is modelled separately by
`linear_search_chk`. -/
def linear_search (c : List α) (item : α) (left right : Nat) : Option Nat :=
  match position (fun v => decide (v = item)) ((c.drop left).take (right - left)) with
  | some idx => some (left + idx)
  | none => none

/-- Embedding of `get_optimal_jump_size` (src/lib.rs:60-62): the source
computes `(collection.len() as f64).sqrt() as usize`, which equals
`Nat.sqrt (length)` for every length below `(2^26 + 1)^2 - 1` (the first
length at which the correctly rounded `f64` square root crosses an integer
boundary), so far beyond any realistic vector; we embed it as `Nat.sqrt`. -/
def get_optimal_jump_size (c : List α) : Nat :=
  Nat.sqrt c.length

/-- Fuel-indexed embedding of the `while` loop of `find_jump_with_size`
(src/lib.rs:34-46).  State `i` is the probe index; `none` means the fuel ran
out with the loop still running.  Note the source does NOT return after an
unsuccessful overshoot linear search: it falls through to `i += jump_size`. -/
def jumpLoop (c : List α) (item : α) (jump_size : Nat) : Nat → Nat → Option (Option Nat)
  | _, 0 => none
  | i, fuel + 1 =>
    if h : i < c.length then
      if c.get ⟨i, h⟩ = item then some (some i)
      else if item < c.get ⟨i, h⟩ then
        match linear_search c item (i - jump_size) i with
        | some idx => some (some idx)
        | none => jumpLoop c item jump_size (i + jump_size) fuel
      else jumpLoop c item jump_size (i + jump_size) fuel
    else some (linear_search c item (i - jump_size) c.length)

/-- Embedding of `find_jump_with_size` (src/lib.rs:31-47).  Fuel
`c.length + 1` is proved sufficient whenever `jump_size ≥ 1` or the
collection is empty — which covers every call the program makes; for
`jump_size = 0` on a non-empty collection the source loop diverges
(see the stride-zero theorems) and the `none => none` arm is a default
that no reachable call exercises. -/
def find_jump_with_size (c : List α) (item : α) (jump_size : Nat) : Option Nat :=
  match jumpLoop c item jump_size jump_size (c.length + 1) with
  | some r => r
  | none => none

/-- Embedding of `find_jump` (src/lib.rs:24-28). -/
def find_jump (c : List α) (item : α) : Option Nat :=
  find_jump_with_size c item (get_optimal_jump_size c)

/-- Fuel-indexed embedding of Rust `slice::binary_search` on `[l, r)`:
`mid = l + (r - l) / 2`; element less than target → right half, greater →
left half, equal → `Ok(mid)`; empty range → `Err`.  Outer `none` = fuel ran
out (fuel `length + 1` is proved sufficient); `some none` = `Err` (absence).
The `c.get? mid = none` arm is dead code on reachable states (`r ≤ length`
forces `mid < length`). -/
def bsLoop (c : List α) (item : α) : Nat → Nat → Nat → Option (Option Nat)
  | _, _, 0 => none
  | l, r, fuel + 1 =>
    if l < r then
      match c.get? (l + (r - l) / 2) with
      | none => some none
      | some v =>
        if v < item then bsLoop c item (l + (r - l) / 2 + 1) r fuel
        else if item < v then bsLoop c item l (l + (r - l) / 2) fuel
        else some (some (l + (r - l) / 2))
    else some none

/-- Rust `collection.binary_search(item)` with `Ok idx ↦ some idx`,
`Err _ ↦ none`, exactly as the dispatcher's `match` maps it
(src/lib.rs:14-17). -/
def binary_search (c : List α) (item : α) : Option Nat :=
  match bsLoop c item 0 c.length (c.length + 1) with
  | some r => r
  | none => none

/-- Embedding of `find` (src/lib.rs:4-21).  The platform introspection is
abstracted as `cacheParams : Option (List Nat)`:
`none` models `CpuId::new().get_cache_parameters()` returning `None` — on
which the source's `?` operator makes `find` itself return `None` —
and `some sizes` models a successful query whose filtered L2-data cache
descriptors yield the listed `sets * associativity * coherency_line_size`
values; `cache_line_size` is then their iterator `min()`.  The source's
`is_some() && unwrap() <= jump_size` test is rendered as the `match`. -/
def find (c : List α) (item : α) (cacheParams : Option (List Nat)) : Option Nat :=
  let jump_size := get_optimal_jump_size c
  match cacheParams with
  | none => none
  | some sizes =>
    match sizes.min? with
    | some cache_line_size =>
      if cache_line_size ≤ jump_size then binary_search c item
      else find_jump_with_size c item jump_size
    | none => find_jump_with_size c item jump_size

/-- Reference jump-search loop following the spec's words (§4.3): on the
first probe with `sequence[i] > target` it returns the linear scan of
`[i - s, i)` immediately — match or absence — instead of falling through
like the source loop does.  Used only to state the refinement claim that
the source loop extensionally equals this reference on sorted input. -/
def refLoop (c : List α) (item : α) (jump_size : Nat) : Nat → Nat → Option (Option Nat)
  | _, 0 => none
  | i, fuel + 1 =>
    if h : i < c.length then
      if c.get ⟨i, h⟩ = item then some (some i)
      else if item < c.get ⟨i, h⟩ then
        some (linear_search c item (i - jump_size) i)
      else refLoop c item jump_size (i + jump_size) fuel
    else some (linear_search c item (i - jump_size) c.length)

/-- Reference jump search (spec §4.3, stop at the first overshoot),
packaged like `find_jump_with_size`. -/
def find_jump_spec (c : List α) (item : α) (jump_size : Nat) : Option Nat :=
  match refLoop c item jump_size jump_size (c.length + 1) with
  | some r => r
  | none => none

/-- Outcome of a run of the checked (panic-aware) semantics. -/
inductive RunRes : Type where
  | panicked : RunRes
  | ok : Option Nat → RunRes
  deriving DecidableEq

/-- Checked `linear_search`: Rust's slice expression `collection[left..right]`
panics unless `left ≤ right ∧ right ≤ collection.len()`; `none` = panic. -/
def linear_search_chk (c : List α) (item : α) (left right : Nat) : Option (Option Nat) :=
  if left ≤ right ∧ right ≤ c.length then some (linear_search c item left right) else none

/-- Checked jump-search loop: every place the source may panic — the
`usize` subtraction `i - jump_size` (underflow) and the slice taken by
`linear_search` — is guarded; `some .panicked` records a panic, outer
`none` = fuel ran out.  The probe `collection[i]` itself is guarded by the
loop condition `i < collection.len()` exactly as in the source. -/
def jumpLoopChk (c : List α) (item : α) (jump_size : Nat) : Nat → Nat → Option RunRes
  | _, 0 => none
  | i, fuel + 1 =>
    if h : i < c.length then
      if c.get ⟨i, h⟩ = item then some (.ok (some i))
      else if item < c.get ⟨i, h⟩ then
        if jump_size ≤ i then
          match linear_search_chk c item (i - jump_size) i with
          | none => some .panicked
          | some (some idx) => some (.ok (some idx))
          | some none => jumpLoopChk c item jump_size (i + jump_size) fuel
        else some .panicked
      else jumpLoopChk c item jump_size (i + jump_size) fuel
    else
      if jump_size ≤ i then
        match linear_search_chk c item (i - jump_size) c.length with
        | none => some .panicked
        | some r => some (.ok r)
      else some .panicked

/-- Checked run of `find_jump`: the jump loop under the panic-aware
semantics, with the same stride and fuel as `find_jump`. -/
def find_jump_chk (c : List α) (item : α) : Option RunRes :=
  jumpLoopChk c item (get_optimal_jump_size c) (get_optimal_jump_size c) (c.length + 1)

end Embedding

section LinearSearchLemmas

variable {α : Type} [LinearOrder α]

theorem position_some {p : α → Bool} {l : List α} {i : Nat}
    (h : position p l = some i) : ∃ a, l.get? i = some a ∧ p a = true := by
  induction l generalizing i with
  | nil => simp [position] at h
  | cons a as ih =>
    by_cases hp : p a
    · simp only [position, if_pos hp] at h
      obtain rfl : (0 : Nat) = i := Option.some.inj h
      exact ⟨a, rfl, hp⟩
    · simp only [position, if_neg hp, Option.map_eq_some'] at h
      obtain ⟨j, hj, rfl⟩ := h
      obtain ⟨b, hb, hpb⟩ := ih hj
      exact ⟨b, hb, hpb⟩

theorem position_none {p : α → Bool} {l : List α}
    (h : position p l = none) : ∀ a ∈ l, p a = false := by
  induction l with
  | nil => intro a ha; simp at ha
  | cons a as ih =>
    by_cases hp : p a
    · simp [position, if_pos hp] at h
    · simp only [position, if_neg hp] at h
      intro b hb
      rcases List.mem_cons.mp hb with rfl | hbs
      · exact Bool.eq_false_iff.mpr hp
      · exact ih (by simpa using h) b hbs

theorem position_isSome {p : α → Bool} {l : List α} {i : Nat} {a : α}
    (ha : l.get? i = some a) (hp : p a = true) : (position p l).isSome := by
  induction l generalizing i with
  | nil => simp at ha
  | cons b bs ih =>
    by_cases hb : p b
    · simp [position, if_pos hb]
    · simp only [position, if_neg hb]
      cases i with
      | zero =>
        simp only [List.get?] at ha
        obtain rfl := Option.some.inj ha
        exact absurd hp (by simpa using hb)
      | succ j =>
        simp only [List.get?] at ha
        simpa using ih ha

/-- Index access into the slice `collection[left..right]` is index access
into the collection, shifted. -/
theorem slice_get? (c : List α) {l r k : Nat} (hl : l ≤ k) (hr : k < r) :
    ((c.drop l).take (r - l)).get? (k - l) = c.get? k := by
  rw [List.get?_take (by omega), List.get?_drop]
  congr 1
  omega

theorem linear_search_some {c : List α} {x : α} {l r j : Nat}
    (h : linear_search c x l r = some j) :
    l ≤ j ∧ j < r ∧ c.get? j = some x := by
  unfold linear_search at h
  rcases hpos : position (fun v => decide (v = x)) ((c.drop l).take (r - l)) with _ | idx
  · rw [hpos] at h; exact absurd h (by simp)
  · rw [hpos] at h
    obtain rfl : l + idx = j := Option.some.inj h
    obtain ⟨a, ha, hpa⟩ := position_some hpos
    have hidx : idx < ((c.drop l).take (r - l)).length := by
      obtain ⟨hlt, _⟩ := List.get?_eq_some.mp ha
      exact hlt
    have hlen : ((c.drop l).take (r - l)).length = min (r - l) (c.length - l) := by
      simp [List.length_take, List.length_drop]
    have hjr : l + idx < r := by omega
    have hkey : ((c.drop l).take (r - l)).get? idx = c.get? (l + idx) := by
      have : l + idx - l = idx := by omega
      calc ((c.drop l).take (r - l)).get? idx
          = ((c.drop l).take (r - l)).get? (l + idx - l) := by rw [this]
        _ = c.get? (l + idx) := slice_get? c (by omega) hjr
    refine ⟨by omega, hjr, ?_⟩
    rw [← hkey, ha]
    have : a = x := by simpa using hpa
    rw [this]

theorem linear_search_none {c : List α} {x : α} {l r : Nat}
    (h : linear_search c x l r = none) :
    ∀ k, l ≤ k → k < r → c.get? k ≠ some x := by
  intro k hl hr hk
  unfold linear_search at h
  rcases hpos : position (fun v => decide (v = x)) ((c.drop l).take (r - l)) with _ | idx
  · have hslice : ((c.drop l).take (r - l)).get? (k - l) = some x := by
      rw [slice_get? c hl hr]; exact hk
    have := position_isSome (p := fun v => decide (v = x)) hslice (by simp)
    rw [hpos] at this
    simp at this
  · rw [hpos] at h; exact absurd h (by simp)

/-- Completeness of the interval scan: a match inside `[l, r)` makes
`linear_search` return something. -/
theorem linear_search_isSome {c : List α} {x : α} {l r k : Nat}
    (hl : l ≤ k) (hr : k < r) (hk : c.get? k = some x) :
    (linear_search c x l r).isSome := by
  rcases hres : linear_search c x l r with _ | j
  · exact absurd hk (linear_search_none hres k hl hr)
  · simp

end LinearSearchLemmas

section JumpLemmas

variable {α : Type} [LinearOrder α]

/-- Sortedness transported to `get?` indexing. -/
theorem sorted_le_of_get? {c : List α} (hs : c.Sorted (· ≤ ·)) {i j : Nat} {a b : α}
    (ha : c.get? i = some a) (hb : c.get? j = some b) (hij : i ≤ j) : a ≤ b := by
  obtain ⟨hi, rfl⟩ := List.get?_eq_some.mp ha
  obtain ⟨hj, rfl⟩ := List.get?_eq_some.mp hb
  exact hs.rel_get_of_le (a := ⟨i, hi⟩) (b := ⟨j, hj⟩) hij

/-- Membership phrased through `get?`. -/
theorem mem_iff_get? {c : List α} {x : α} : x ∈ c ↔ ∃ p, c.get? p = some x := by
  rw [List.mem_iff_get]
  constructor
  · rintro ⟨n, rfl⟩
    exact ⟨n.1, List.get?_eq_get n.2⟩
  · rintro ⟨p, hp⟩
    obtain ⟨h, rfl⟩ := List.get?_eq_some.mp hp
    exact ⟨⟨p, h⟩, rfl⟩

/-- Raising the fuel does not change a result the loop already reached. -/
theorem jumpLoop_fuel_stable {c : List α} {x : α} {s : Nat} {r : Option Nat} :
    ∀ {fuel fuel2 i}, jumpLoop c x s i fuel = some r → fuel ≤ fuel2 →
      jumpLoop c x s i fuel2 = some r := by
  intro fuel
  induction fuel with
  | zero => intro fuel2 i h _; simp [jumpLoop] at h
  | succ n ih =>
    intro fuel2 i h hle
    obtain ⟨m, rfl⟩ : ∃ m, fuel2 = m + 1 := ⟨fuel2 - 1, by omega⟩
    by_cases hi : i < c.length
    · simp only [jumpLoop, dif_pos hi] at h ⊢
      by_cases heq : c.get ⟨i, hi⟩ = x
      · rw [if_pos heq] at h ⊢; exact h
      · rw [if_neg heq] at h ⊢
        by_cases hlt : x < c.get ⟨i, hi⟩
        · rw [if_pos hlt] at h ⊢
          rcases hls : linear_search c x (i - s) i with _ | idx
          · rw [hls] at h
            exact ih h (by omega)
          · rw [hls] at h
            exact h
        · rw [if_neg hlt] at h ⊢
          exact ih h (by omega)
    · simp only [jumpLoop, dif_neg hi] at h ⊢; exact h

/-- Fuel sufficiency for a positive stride: `fuel` iterations at stride `s`
cover `length - i` remaining elements, plus one step to exit the loop. -/
theorem jumpLoop_terminates {c : List α} {x : α} {s : Nat} :
    ∀ {f i}, c.length - i ≤ f * s →
      ∃ r, jumpLoop c x s i (f + 1) = some r := by
  intro fuel
  induction fuel with
  | zero =>
    intro i h
    have hi : ¬ i < c.length := by omega
    exact ⟨linear_search c x (i - s) c.length, by simp [jumpLoop, dif_neg hi]⟩
  | succ n ih =>
    intro i h
    by_cases hi : i < c.length
    · simp only [jumpLoop, dif_pos hi]
      by_cases heq : c.get ⟨i, hi⟩ = x
      · exact ⟨some i, by rw [if_pos heq]⟩
      · rw [if_neg heq]
        have harith : c.length - (i + s) ≤ n * s := by
          rw [Nat.succ_mul] at h
          obtain ⟨k, hk⟩ : ∃ k, n * s = k := ⟨_, rfl⟩
          rw [hk] at h ⊢
          omega
        by_cases hlt : x < c.get ⟨i, hi⟩
        · rw [if_pos hlt]
          rcases hls : linear_search c x (i - s) i with _ | idx
          · exact ih harith
          · exact ⟨some idx, rfl⟩
        · rw [if_neg hlt]
          exact ih harith
    · exact ⟨linear_search c x (i - s) c.length, by simp [jumpLoop, dif_neg hi]⟩

/-- Soundness of the loop on ANY collection, sorted or not: an index it
returns holds the item. -/
theorem jumpLoop_sound {c : List α} {x : α} {s : Nat} :
    ∀ {fuel i j}, jumpLoop c x s i fuel = some (some j) → c.get? j = some x := by
  intro fuel
  induction fuel with
  | zero => intro i j h; simp [jumpLoop] at h
  | succ n ih =>
    intro i j h
    by_cases hi : i < c.length
    · simp only [jumpLoop, dif_pos hi] at h
      by_cases heq : c.get ⟨i, hi⟩ = x
      · rw [if_pos heq] at h
        have hj : i = j := by simpa using h
        subst hj
        rw [List.get?_eq_get hi, heq]
      · rw [if_neg heq] at h
        by_cases hlt : x < c.get ⟨i, hi⟩
        · rw [if_pos hlt] at h
          rcases hls : linear_search c x (i - s) i with _ | idx
          · rw [hls] at h; exact ih h
          · rw [hls] at h
            have hj : idx = j := by simpa using h
            subst hj
            exact (linear_search_some hls).2.2
        · rw [if_neg hlt] at h; exact ih h
    · simp only [jumpLoop, dif_neg hi] at h
      have h2 : linear_search c x (i - s) c.length = some j := Option.some.inj h
      exact (linear_search_some h2).2.2

/-- Once every element from position `b` on is greater than the item, the
loop can only finish with absence (all its probes and scans stay at
positions `≥ b`). -/
theorem jumpLoop_all_gt {c : List α} {x : α} {s b : Nat}
    (hgt : ∀ p a, b ≤ p → c.get? p = some a → x < a) :
    ∀ {fuel i}, b ≤ i - s → c.length - i ≤ fuel * s →
      jumpLoop c x s i (fuel + 1) = some none := by
  have hlin : ∀ {l r : Nat}, b ≤ l → linear_search c x l r = none := by
    intro l r hbl
    rcases hls : linear_search c x l r with _ | idx
    · rfl
    · obtain ⟨hl, _, hget⟩ := linear_search_some hls
      exact absurd rfl (ne_of_gt (hgt idx x (by omega) hget))
  intro fuel
  induction fuel with
  | zero =>
    intro i hb h
    have hi : ¬ i < c.length := by omega
    simp only [jumpLoop, dif_neg hi]
    rw [hlin (by omega)]
  | succ n ih =>
    intro i hb h
    by_cases hi : i < c.length
    · have hxi : x < c.get ⟨i, hi⟩ :=
        hgt i _ (le_trans hb (Nat.sub_le i s)) (List.get?_eq_get hi)
      simp only [jumpLoop, dif_pos hi, if_neg (ne_of_gt hxi), if_pos hxi]
      rw [hlin (by omega)]
      have harith : c.length - (i + s) ≤ n * s := by
        rw [Nat.succ_mul] at h
        obtain ⟨k, hk⟩ : ∃ k, n * s = k := ⟨_, rfl⟩
        rw [hk] at h ⊢
        omega
      exact ih (by omega) harith
    · simp only [jumpLoop, dif_neg hi]
      rw [hlin (by omega)]

end JumpLemmas

section RefLemmas

variable {α : Type} [LinearOrder α]

/-- On a sorted collection the source loop computes exactly what the
spec's stop-at-first-overshoot reference loop computes: after a failed
overshoot scan every element the source loop still probes or scans is
greater than the item, so the extra jumping only ever yields absence. -/
theorem jumpLoop_eq_refLoop {c : List α} {x : α} {s : Nat}
    (hsort : c.Sorted (· ≤ ·)) :
    ∀ {f i}, c.length - i ≤ f * s →
      jumpLoop c x s i (f + 1) = refLoop c x s i (f + 1) := by
  intro fuel
  induction fuel with
  | zero =>
    intro i h
    have hi : ¬ i < c.length := by omega
    simp [jumpLoop, refLoop, dif_neg hi]
  | succ n ih =>
    intro i h
    by_cases hi : i < c.length
    · simp only [jumpLoop, refLoop, dif_pos hi]
      by_cases heq : c.get ⟨i, hi⟩ = x
      · rw [if_pos heq, if_pos heq]
      · rw [if_neg heq, if_neg heq]
        have harith : c.length - (i + s) ≤ n * s := by
          rw [Nat.succ_mul] at h
          obtain ⟨k, hk⟩ : ∃ k, n * s = k := ⟨_, rfl⟩
          rw [hk] at h ⊢
          omega
        by_cases hlt : x < c.get ⟨i, hi⟩
        · rw [if_pos hlt, if_pos hlt]
          rcases hls : linear_search c x (i - s) i with _ | idx
          · have hgt : ∀ p a, i ≤ p → c.get? p = some a → x < a := by
              intro p a hip hpa
              have hle : c.get ⟨i, hi⟩ ≤ a :=
                sorted_le_of_get? hsort (List.get?_eq_get hi) hpa hip
              exact lt_of_lt_of_le hlt hle
            exact jumpLoop_all_gt hgt (by omega) harith
          · rfl
        · rw [if_neg hlt, if_neg hlt]
          exact ih harith
    · simp [jumpLoop, refLoop, dif_neg hi]

/-- Functional correctness of the reference loop on sorted collections,
under the loop invariant that any match lies at position `≥ i - s`. -/
theorem refLoop_correct {c : List α} {x : α} {s : Nat}
    (hsort : c.Sorted (· ≤ ·)) :
    ∀ {f i}, c.length - i ≤ f * s →
      (∀ p, c.get? p = some x → i - s ≤ p) →
      ∃ r, refLoop c x s i (f + 1) = some r ∧
        (∀ j, r = some j → c.get? j = some x) ∧
        (r = none → ∀ p, c.get? p ≠ some x) := by
  intro fuel
  induction fuel with
  | zero =>
    intro i h hinv
    have hi : ¬ i < c.length := by omega
    refine ⟨linear_search c x (i - s) c.length, by simp [refLoop, dif_neg hi], ?_, ?_⟩
    · intro j hj
      exact (linear_search_some hj).2.2
    · intro hnone p hp
      obtain ⟨hplen, _⟩ := List.get?_eq_some.mp hp
      have hss := linear_search_isSome (hinv p hp) hplen hp
      rw [hnone] at hss
      simp at hss
  | succ n ih =>
    intro i h hinv
    by_cases hi : i < c.length
    · have hgeti : c.get? i = some (c.get ⟨i, hi⟩) := List.get?_eq_get hi
      by_cases heq : c.get ⟨i, hi⟩ = x
      · refine ⟨some i, by simp only [refLoop, dif_pos hi, if_pos heq], ?_, ?_⟩
        · intro j hj
          have hij : i = j := by simpa using hj
          subst hij
          rw [hgeti, heq]
        · intro hnone
          exact absurd hnone (by simp)
      · have harith : c.length - (i + s) ≤ n * s := by
          rw [Nat.succ_mul] at h
          obtain ⟨k, hk⟩ : ∃ k, n * s = k := ⟨_, rfl⟩
          rw [hk] at h ⊢
          omega
        by_cases hlt : x < c.get ⟨i, hi⟩
        · refine ⟨linear_search c x (i - s) i,
            by simp only [refLoop, dif_pos hi, if_neg heq, if_pos hlt], ?_, ?_⟩
          · intro j hj
            exact (linear_search_some hj).2.2
          · intro hnone p hp
            have hpi : i - s ≤ p := hinv p hp
            have hplt : p < i := by
              by_contra hge
              push_neg at hge
              have hle : c.get ⟨i, hi⟩ ≤ x := sorted_le_of_get? hsort hgeti hp hge
              exact absurd hlt (not_lt.mpr hle)
            have hss := linear_search_isSome hpi hplt hp
            rw [hnone] at hss
            simp at hss
        · have hcix : c.get ⟨i, hi⟩ < x := lt_of_le_of_ne (not_lt.mp hlt) heq
          have hinv2 : ∀ p, c.get? p = some x → (i + s) - s ≤ p := by
            intro p hp
            have hip : i < p := by
              by_contra hge
              push_neg at hge
              have hxle : x ≤ c.get ⟨i, hi⟩ := sorted_le_of_get? hsort hp hgeti hge
              exact absurd (lt_of_lt_of_le hcix hxle) (lt_irrefl _)
            omega
          obtain ⟨r, hr, hr1, hr2⟩ := ih harith hinv2
          refine ⟨r, ?_, hr1, hr2⟩
          simp only [refLoop, dif_pos hi, if_neg heq, if_neg hlt]
          exact hr
    · refine ⟨linear_search c x (i - s) c.length, by simp [refLoop, dif_neg hi], ?_, ?_⟩
      · intro j hj
        exact (linear_search_some hj).2.2
      · intro hnone p hp
        obtain ⟨hplen, _⟩ := List.get?_eq_some.mp hp
        have hss := linear_search_isSome (hinv p hp) hplen hp
        rw [hnone] at hss
        simp at hss

/-- An index returned by `find_jump` always holds the item — no sortedness
assumed. -/
theorem find_jump_sound {c : List α} {x : α} {j : Nat}
    (h : find_jump c x = some j) : c.get? j = some x := by
  unfold find_jump find_jump_with_size at h
  rcases hj : jumpLoop c x (get_optimal_jump_size c) (get_optimal_jump_size c)
      (c.length + 1) with _ | r
  · rw [hj] at h
    exact absurd h (by simp)
  · rw [hj] at h
    have hr : r = some j := h
    rw [hr] at hj
    exact jumpLoop_sound hj

/-- Absence of the item forces `find_jump` to return `none` — no sortedness
assumed. -/
theorem find_jump_eq_none {c : List α} {x : α}
    (habs : ∀ p, c.get? p ≠ some x) : find_jump c x = none := by
  rcases h : find_jump c x with _ | j
  · rfl
  · exact absurd (find_jump_sound h) (habs j)

/-- Presence/absence characterisation of `find_jump` on sorted collections. -/
theorem find_jump_isSome_iff {c : List α} {x : α} (hsort : c.Sorted (· ≤ ·)) :
    (find_jump c x).isSome ↔ ∃ p, c.get? p = some x := by
  constructor
  · intro h
    obtain ⟨j, hj⟩ := Option.isSome_iff_exists.mp h
    exact ⟨j, find_jump_sound hj⟩
  · rintro ⟨p, hp⟩
    obtain ⟨hplen, _⟩ := List.get?_eq_some.mp hp
    have hlen : 1 ≤ c.length := by omega
    have hs : 1 ≤ get_optimal_jump_size c := Nat.sqrt_pos.mpr hlen
    have hfuel : c.length - get_optimal_jump_size c ≤ c.length * get_optimal_jump_size c := by
      have h2 : c.length ≤ c.length * get_optimal_jump_size c :=
        Nat.le_mul_of_pos_right _ hs
      omega
    obtain ⟨r, hr, hr1, hr2⟩ :=
      refLoop_correct (x := x) (s := get_optimal_jump_size c) hsort (f := c.length)
        (i := get_optimal_jump_size c) hfuel (fun q _ => by omega)
    have heqv := jumpLoop_eq_refLoop (x := x) (s := get_optimal_jump_size c) hsort
      (f := c.length) (i := get_optimal_jump_size c) hfuel
    rcases r with _ | j
    · exact absurd hp (hr2 rfl p)
    · have hfj : find_jump c x = some j := by
        unfold find_jump find_jump_with_size
        rw [heqv, hr]
      rw [hfj]
      simp

end RefLemmas

section BinarySearchLemmas

variable {α : Type} [LinearOrder α]

/-- Fuel sufficiency for the binary-search loop: the range shrinks by at
least one element per iteration. -/
theorem bsLoop_terminates {c : List α} {x : α} :
    ∀ {fuel l r}, r - l < fuel → ∃ res, bsLoop c x l r fuel = some res := by
  intro fuel
  induction fuel with
  | zero =>
    intro l r h
    omega
  | succ n ih =>
    intro l r h
    by_cases hlr : l < r
    · rcases hg : c.get? (l + (r - l) / 2) with _ | v
      · exact ⟨none, by simp only [bsLoop, if_pos hlr, hg]⟩
      · simp only [bsLoop, if_pos hlr, hg]
        by_cases hv : v < x
        · rw [if_pos hv]
          exact ih (by omega)
        · rw [if_neg hv]
          by_cases hx : x < v
          · rw [if_pos hx]
            exact ih (by omega)
          · rw [if_neg hx]
            exact ⟨some (l + (r - l) / 2), rfl⟩
    · exact ⟨none, by simp [bsLoop, if_neg hlr]⟩

/-- Soundness of the binary-search loop: a returned index holds the item. -/
theorem bsLoop_sound {c : List α} {x : α} :
    ∀ {fuel l r j}, bsLoop c x l r fuel = some (some j) → c.get? j = some x := by
  intro fuel
  induction fuel with
  | zero =>
    intro l r j h
    simp [bsLoop] at h
  | succ n ih =>
    intro l r j h
    by_cases hlr : l < r
    · rcases hg : c.get? (l + (r - l) / 2) with _ | v
      · simp only [bsLoop, if_pos hlr, hg] at h
        exact absurd h (by simp)
      · simp only [bsLoop, if_pos hlr, hg] at h
        by_cases hv : v < x
        · rw [if_pos hv] at h
          exact ih h
        · rw [if_neg hv] at h
          by_cases hx : x < v
          · rw [if_pos hx] at h
            exact ih h
          · rw [if_neg hx] at h
            have hj : l + (r - l) / 2 = j := by simpa using h
            have hvx : v = x := le_antisymm (not_lt.mp hx) (not_lt.mp hv)
            rw [← hj, hg, hvx]
    · simp [bsLoop, if_neg hlr] at h

/-- Completeness of the binary-search loop on a sorted collection: if the
item sits at some position inside `[l, r)`, the loop finds a match. -/
theorem bsLoop_complete {c : List α} {x : α} (hsort : c.Sorted (· ≤ ·)) :
    ∀ {f l r}, r - l < f → r ≤ c.length →
      (∃ p, l ≤ p ∧ p < r ∧ c.get? p = some x) →
      ∃ j, bsLoop c x l r f = some (some j) := by
  intro fuel
  induction fuel with
  | zero =>
    intro l r h _ _
    omega
  | succ n ih =>
    intro l r h hrlen ⟨p, hlp, hpr, hp⟩
    have hlr : l < r := by omega
    have hmidr : l + (r - l) / 2 < r := by omega
    have hmidlen : l + (r - l) / 2 < c.length := by omega
    rcases hg : c.get? (l + (r - l) / 2) with _ | v
    · exact absurd hg (by rw [List.get?_eq_get hmidlen]; simp)
    · simp only [bsLoop, if_pos hlr, hg]
      by_cases hv : v < x
      · rw [if_pos hv]
        have hpmid : l + (r - l) / 2 < p := by
          by_contra hge
          push_neg at hge
          have hxle : x ≤ v := sorted_le_of_get? hsort hp hg hge
          exact absurd (lt_of_lt_of_le hv hxle) (lt_irrefl _)
        exact ih (by omega) hrlen ⟨p, by omega, hpr, hp⟩
      · rw [if_neg hv]
        by_cases hx : x < v
        · rw [if_pos hx]
          have hpmid : p < l + (r - l) / 2 := by
            by_contra hge
            push_neg at hge
            have hvle : v ≤ x := sorted_le_of_get? hsort hg hp hge
            exact absurd (lt_of_lt_of_le hx hvle) (lt_irrefl _)
          exact ih (by omega) (by omega) ⟨p, hlp, hpmid, hp⟩
        · rw [if_neg hx]
          exact ⟨l + (r - l) / 2, rfl⟩

/-- Presence/absence characterisation of the embedded `binary_search` on
sorted collections. -/
theorem binary_search_isSome_iff {c : List α} {x : α} (hsort : c.Sorted (· ≤ ·)) :
    (binary_search c x).isSome ↔ ∃ p, c.get? p = some x := by
  constructor
  · intro h
    obtain ⟨j, hj⟩ := Option.isSome_iff_exists.mp h
    unfold binary_search at hj
    rcases hbs : bsLoop c x 0 c.length (c.length + 1) with _ | res
    · rw [hbs] at hj
      exact absurd hj (by simp)
    · rw [hbs] at hj
      have hres : res = some j := hj
      rw [hres] at hbs
      exact ⟨j, bsLoop_sound hbs⟩
  · rintro ⟨p, hp⟩
    obtain ⟨hplen, _⟩ := List.get?_eq_some.mp hp
    obtain ⟨j, hj⟩ := bsLoop_complete (x := x) hsort (f := c.length + 1)
      (l := 0) (r := c.length) (by omega) (le_refl _) ⟨p, Nat.zero_le p, hplen, hp⟩
    have hb : binary_search c x = some j := by
      unfold binary_search
      rw [hj]
    rw [hb]
    simp

end BinarySearchLemmas

section CheckedLemmas

variable {α : Type} [LinearOrder α]

/-- The checked loop never panics and agrees with the plain loop, as long
as the stride never exceeds the probe index (no `usize` underflow) and the
last scanned block starts inside the collection — the invariants the loop
maintains from its entry state `i = jump_size`. -/
theorem jumpLoopChk_eq_map {c : List α} {x : α} {s : Nat} :
    ∀ {fuel i}, s ≤ i → i - s ≤ c.length →
      jumpLoopChk c x s i fuel = (jumpLoop c x s i fuel).map RunRes.ok := by
  intro fuel
  induction fuel with
  | zero =>
    intro i _ _
    rfl
  | succ n ih =>
    intro i hsi hinv
    by_cases hi : i < c.length
    · simp only [jumpLoopChk, jumpLoop, dif_pos hi]
      by_cases heq : c.get ⟨i, hi⟩ = x
      · rw [if_pos heq, if_pos heq]
        rfl
      · rw [if_neg heq, if_neg heq]
        by_cases hlt : x < c.get ⟨i, hi⟩
        · rw [if_pos hlt, if_pos hlt, if_pos hsi]
          have hchk : linear_search_chk c x (i - s) i
              = some (linear_search c x (i - s) i) :=
            if_pos ⟨Nat.sub_le i s, le_of_lt hi⟩
          rw [hchk]
          rcases linear_search c x (i - s) i with _ | idx
          · exact ih (by omega) (by omega)
          · rfl
        · rw [if_neg hlt, if_neg hlt]
          exact ih (by omega) (by omega)
    · simp only [jumpLoopChk, jumpLoop, dif_neg hi]
      rw [if_pos hsi]
      have hchk : linear_search_chk c x (i - s) c.length
          = some (linear_search c x (i - s) c.length) :=
        if_pos ⟨hinv, le_refl _⟩
      rw [hchk]
      rfl

/-- With the stride the program computes, fuel `length + 1` always
completes the loop: for a non-empty collection the stride is positive, and
for the empty collection the loop body never runs. -/
theorem jumpLoop_run_eq (c : List α) (x : α) :
    jumpLoop c x (get_optimal_jump_size c) (get_optimal_jump_size c) (c.length + 1)
      = some (find_jump c x) := by
  by_cases hc : c = []
  · subst hc
    rfl
  · have hlen : 0 < c.length := List.length_pos.mpr hc
    have hs : 1 ≤ get_optimal_jump_size c := Nat.sqrt_pos.mpr hlen
    have hfuel : c.length - get_optimal_jump_size c
        ≤ c.length * get_optimal_jump_size c := by
      have h2 : c.length ≤ c.length * get_optimal_jump_size c :=
        Nat.le_mul_of_pos_right _ hs
      omega
    obtain ⟨r, hr⟩ := jumpLoop_terminates (x := x) (f := c.length)
      (i := get_optimal_jump_size c) hfuel
    have hfj : find_jump c x = r := by
      unfold find_jump find_jump_with_size
      rw [hr]
    rw [hr, hfj]

/-- The checked run of `find_jump` terminates within fuel `length + 1`,
never panics, and returns exactly what `find_jump` returns. -/
theorem find_jump_chk_eq (c : List α) (x : α) :
    find_jump_chk c x = some (RunRes.ok (find_jump c x)) := by
  unfold find_jump_chk
  rw [jumpLoopChk_eq_map (le_refl _) (by omega), jumpLoop_run_eq]
  rfl

end CheckedLemmas

section EvalHelpers

variable {α : Type} [LinearOrder α]

/-- Evaluation rule for the stride: `Nat.sqrt` is defined by well-founded
recursion, which the kernel does not reduce, so concrete strides are
established through the floor-square-root characterisation instead. -/
theorem get_optimal_jump_size_eval (c : List α) (q : Nat)
    (h1 : q * q ≤ c.length) (h2 : c.length < (q + 1) * (q + 1)) :
    get_optimal_jump_size c = q := by
  have hl : q ≤ Nat.sqrt c.length := Nat.le_sqrt.mpr h1
  have hu : Nat.sqrt c.length < q + 1 := Nat.sqrt_lt.mpr h2
  unfold get_optimal_jump_size
  omega

end EvalHelpers

section Claims

/-- C1: the claim says a failed platform cache-introspection must be
treated as "no hint" and fall back to jump search, never surfacing as a
search failure.  The code violates it: `get_cache_parameters()?` makes
`find` return `None` outright when the query fails, so a present element
(here the only element of `[5]`, which jump search finds at index 0) is
reported absent. -/
theorem C1_introspection_failure_becomes_search_failure :
    find [(5 : Int)] 5 none = none ∧ find_jump [(5 : Int)] 5 = some 0 := by
  constructor
  · rfl
  · decide

/-- C2, counterexample to the claim as stated: with the provider outcome
"introspection failed" (`none`), `find` returns `none` while `find_jump`
finds 2 in `[1, 2, 3]`, so they disagree on found-vs-not-found. -/
theorem C2_disagree_on_failed_introspection :
    ¬ ((find [(1 : Int), 2, 3] 2 none).isSome
        = (find_jump [(1 : Int), 2, 3] 2).isSome) := by
  have hj : find_jump [(1 : Int), 2, 3] 2 = some 1 := by
    unfold find_jump
    rw [get_optimal_jump_size_eval [(1 : Int), 2, 3] 1 (by decide) (by decide)]
    decide
  rw [hj]
  decide

/-- C2, amended: for every provider outcome in which the cache-parameter
query succeeds (any list of cache sizes, including none matching), `find`
and `find_jump` agree on presence/absence for every sorted sequence and
target. -/
theorem C2_find_agrees_with_find_jump {α : Type} [LinearOrder α] (c : List α) (x : α)
    (hsort : c.Sorted (· ≤ ·)) (sizes : List Nat) :
    (find c x (some sizes)).isSome = (find_jump c x).isSome := by
  rcases hmin : sizes.min? with _ | cls
  · simp only [find, hmin]
    rfl
  · simp only [find, hmin]
    by_cases hle : cls ≤ get_optimal_jump_size c
    · rw [if_pos hle]
      have h1 := binary_search_isSome_iff (x := x) hsort
      have h2 := find_jump_isSome_iff (x := x) hsort
      by_cases hex : ∃ p, c.get? p = some x
      · rw [h1.mpr hex, h2.mpr hex]
      · rw [Bool.eq_false_iff.mpr (fun hb => hex (h1.mp hb)),
          Bool.eq_false_iff.mpr (fun hb => hex (h2.mp hb))]
    · rw [if_neg hle]
      rfl

/-- C2, witness: the amended agreement evaluated on `[1, 2, 3]`, target 2,
with a successful query whose minimal size 0 routes to binary search. -/
theorem C2_find_agrees_with_find_jump_witness :
    (find [(1 : Int), 2, 3] 2 (some [0])).isSome
      = (find_jump [(1 : Int), 2, 3] 2).isSome :=
  C2_find_agrees_with_find_jump [(1 : Int), 2, 3] 2 (by decide) [0]

/-- C3: on a sequence sorted ascending, `find_jump` returns an index
holding the target when the target occurs, returns `none` when it does
not occur, and in particular returns `none` for every target on the empty
sequence. -/
theorem C3_find_jump_functional_correctness {α : Type} [LinearOrder α]
    (c : List α) (x : α) (hsort : c.Sorted (· ≤ ·)) :
    (x ∈ c → ∃ i, ∃ hi : i < c.length, find_jump c x = some i ∧ c.get ⟨i, hi⟩ = x) ∧
    (x ∉ c → find_jump c x = none) ∧
    (c = [] → find_jump c x = none) := by
  refine ⟨?_, ?_, ?_⟩
  · intro hmem
    obtain ⟨p, hp⟩ := mem_iff_get?.mp hmem
    have hsome := (find_jump_isSome_iff hsort).mpr ⟨p, hp⟩
    obtain ⟨j, hj⟩ := Option.isSome_iff_exists.mp hsome
    have hg := find_jump_sound hj
    obtain ⟨hjlen, hget⟩ := List.get?_eq_some.mp hg
    exact ⟨j, hjlen, hj, hget⟩
  · intro hmem
    apply find_jump_eq_none
    intro p hp
    exact hmem (mem_iff_get?.mpr ⟨p, hp⟩)
  · rintro rfl
    rfl

/-- C3, witness: absence on the sorted sequence `[1, 2]` with absent
target 3. -/
theorem C3_find_jump_functional_correctness_witness :
    find_jump [(1 : Int), 2] 3 = none :=
  (C3_find_jump_functional_correctness [(1 : Int), 2] 3 (by decide)).2.1 (by decide)

/-- C4, counterexample to the claim as stated: the claim says the stride
for length 1 is 0, but `floor(sqrt(1)) = 1` and the code computes 1. -/
theorem C4_jump_size_of_one :
    get_optimal_jump_size [(0 : Int)] = 1 ∧ (1 : Nat) ≠ 0 := by
  decide

/-- C4, amended: the jump-size calculator is the total pure function
`floor ∘ sqrt` of the length; it returns 0 for length 0, 1 (not 0) for
length 1, 2 for length 4 and 5 for length 29. -/
theorem C4_jump_size_values :
    (∀ c : List Int, get_optimal_jump_size c = Nat.sqrt c.length) ∧
    get_optimal_jump_size ([] : List Int) = 0 ∧
    get_optimal_jump_size [(0 : Int)] = 1 ∧
    get_optimal_jump_size (List.replicate 4 (0 : Int)) = 2 ∧
    get_optimal_jump_size (List.replicate 29 (0 : Int)) = 5 :=
  ⟨fun _ => rfl, by decide, by decide,
   get_optimal_jump_size_eval _ 2 (by decide) (by decide),
   get_optimal_jump_size_eval _ 5 (by decide) (by decide)⟩

/-- C5: the claim says the engine called with stride 0 terminates as a
single linear pass.  The code violates it: on the non-empty collection
`[1]` with target 2 and stride 0 the probe index stays at 0 forever
(`i += 0`), so the loop is still running after every amount of fuel,
whereas the claimed single pass over the whole sequence would return
absence (second conjunct). -/
theorem C5_stride_zero_loops_forever :
    (∀ fuel, jumpLoop [(1 : Int)] 2 0 0 fuel = none) ∧
    linear_search [(1 : Int)] 2 0 1 = none := by
  constructor
  · intro fuel
    induction fuel with
    | zero => rfl
    | succ n ih => simpa [jumpLoop] using ih
  · decide

/-- C6, counterexample to the claim as stated: when no hint is obtained
because the cache-parameter query itself fails, `find` does NOT return the
jump-search result — it returns `none` while jump search finds the target. -/
theorem C6_routing_on_failed_introspection :
    find [(7 : Int), 8] 8 none
      ≠ find_jump_with_size [(7 : Int), 8] 8 (get_optimal_jump_size [(7 : Int), 8]) := by
  rw [get_optimal_jump_size_eval [(7 : Int), 8] 1 (by decide) (by decide)]
  decide

/-- C6, amended: when the cache-parameter query succeeds, `find` routes as
claimed: a minimal cache size `h ≤ stride` (including the boundary
`h = stride`) selects binary search; no matching cache or `h > stride`
selects the jump-search engine with the computed stride. -/
theorem C6_dispatch_routing {α : Type} [LinearOrder α] (c : List α) (x : α)
    (sizes : List Nat) :
    (∀ h, sizes.min? = some h → h ≤ get_optimal_jump_size c →
      find c x (some sizes) = binary_search c x) ∧
    (sizes.min? = none → find c x (some sizes) = find_jump c x) ∧
    (∀ h, sizes.min? = some h → get_optimal_jump_size c < h →
      find c x (some sizes) = find_jump c x) := by
  refine ⟨?_, ?_, ?_⟩
  · intro h hmin hle
    simp only [find, hmin]
    rw [if_pos hle]
  · intro hmin
    simp only [find, hmin]
    rfl
  · intro h hmin hlt
    simp only [find, hmin]
    rw [if_neg (not_le.mpr hlt)]
    rfl

/-- C6, witness: the three routes evaluated on `[3, 4]` (stride 1): minimal
size 1 = stride routes to binary search, an empty filter result and a
minimal size 9 > stride route to jump search. -/
theorem C6_dispatch_routing_witness :
    find [(3 : Int), 4] 4 (some [1]) = binary_search [(3 : Int), 4] 4 ∧
    find [(3 : Int), 4] 4 (some []) = find_jump [(3 : Int), 4] 4 ∧
    find [(3 : Int), 4] 4 (some [9]) = find_jump [(3 : Int), 4] 4 :=
  ⟨(C6_dispatch_routing [(3 : Int), 4] 4 [1]).1 1 rfl
    (by rw [get_optimal_jump_size_eval [(3 : Int), 4] 1 (by decide) (by decide)]),
   (C6_dispatch_routing [(3 : Int), 4] 4 []).2.1 rfl,
   (C6_dispatch_routing [(3 : Int), 4] 4 [9]).2.2 9 rfl
    (by rw [get_optimal_jump_size_eval [(3 : Int), 4] 1 (by decide) (by decide)]; decide)⟩

/-- C7: on sorted input with stride `s ≥ 1` the source engine is
extensionally equal to the reference algorithm that stops at the first
overshoot and returns that scan's result, match or absence.  (The source
falls through on a failed overshoot scan instead of returning, but every
element it can still visit then exceeds the target, so the result never
differs.) -/
theorem C7_engine_equals_first_overshoot_reference {α : Type} [LinearOrder α]
    (c : List α) (x : α) (s : Nat) (hsort : c.Sorted (· ≤ ·)) (hs : 1 ≤ s) :
    find_jump_with_size c x s = find_jump_spec c x s := by
  have hfuel : c.length - s ≤ c.length * s := by
    have h2 : c.length ≤ c.length * s := Nat.le_mul_of_pos_right _ hs
    omega
  have heqv := jumpLoop_eq_refLoop (x := x) (s := s) hsort
    (f := c.length) (i := s) hfuel
  unfold find_jump_with_size find_jump_spec
  rw [heqv]

/-- C7, witness: the refinement evaluated on the sorted sequence `[1, 3]`
with target 2 and stride 1 (an overshoot at index 1 whose scan misses). -/
theorem C7_engine_equals_first_overshoot_reference_witness :
    find_jump_with_size [(1 : Int), 3] 2 1 = find_jump_spec [(1 : Int), 3] 2 1 :=
  C7_engine_equals_first_overshoot_reference [(1 : Int), 3] 2 1 (by decide) (by decide)

/-- C8: whatever index `find_jump` returns — on any collection, sorted or
not — is in bounds and holds exactly the target. -/
theorem C8_returned_index_holds_item {α : Type} [LinearOrder α]
    (c : List α) (x : α) (i : Nat) (h : find_jump c x = some i) :
    i < c.length ∧ c.get? i = some x := by
  have hg := find_jump_sound h
  obtain ⟨hi, _⟩ := List.get?_eq_some.mp hg
  exact ⟨hi, hg⟩

/-- C8, witness: on the UNSORTED collection `[3, 1, 2]`, `find_jump`
returns index 1, which is in bounds and holds the target 1. -/
theorem C8_returned_index_holds_item_witness :
    1 < ([(3 : Int), 1, 2] : List Int).length
      ∧ ([(3 : Int), 1, 2] : List Int).get? 1 = some 1 :=
  C8_returned_index_holds_item [(3 : Int), 1, 2] 1 1 (by
    unfold find_jump
    rw [get_optimal_jump_size_eval [(3 : Int), 1, 2] 1 (by decide) (by decide)]
    decide)

/-- C9: under the panic-aware semantics, the checked run of `find_jump`
terminates within fuel `length + 1` without ever panicking — every
`linear_search` range satisfies `left ≤ right ≤ length`, every probe is in
bounds and `i - stride` never underflows — and it returns exactly
`find_jump`'s result. -/
theorem C9_no_panic_and_agreement {α : Type} [LinearOrder α] (c : List α) (x : α) :
    find_jump_chk c x = some (RunRes.ok (find_jump c x)) :=
  find_jump_chk_eq c x

/-- C10: the stride is at least 1 whenever the collection is non-empty, the
jump loop finishes with one fixed result once given fuel `length + 1` or
more, and on the empty collection (where the loop body never runs)
`find_jump` returns `none`. -/
theorem C10_find_jump_terminates {α : Type} [LinearOrder α] (c : List α) (x : α) :
    (1 ≤ c.length → 1 ≤ get_optimal_jump_size c) ∧
    (∀ fuel, c.length + 1 ≤ fuel →
      jumpLoop c x (get_optimal_jump_size c) (get_optimal_jump_size c) fuel
        = some (find_jump c x)) ∧
    (c.length = 0 → find_jump c x = none) := by
  refine ⟨fun h => Nat.sqrt_pos.mpr h, fun fuel hf => ?_, fun h => ?_⟩
  · exact jumpLoop_fuel_stable (jumpLoop_run_eq c x) hf
  · have hc : c = [] := List.eq_nil_of_length_eq_zero h
    subst hc
    rfl

/-- C10, witness: on `[4, 5]` (stride 1) the loop finishes with the result
of `find_jump` at fuel 3, and on the empty collection `find_jump` returns
`none`. -/
theorem C10_find_jump_terminates_witness :
    1 ≤ get_optimal_jump_size [(4 : Int), 5] ∧
    jumpLoop [(4 : Int), 5] 5 (get_optimal_jump_size [(4 : Int), 5])
      (get_optimal_jump_size [(4 : Int), 5]) 3 = some (find_jump [(4 : Int), 5] 5) ∧
    find_jump ([] : List Int) 7 = none :=
  ⟨(C10_find_jump_terminates [(4 : Int), 5] 5).1 (by decide),
   (C10_find_jump_terminates [(4 : Int), 5] 5).2.1 3 (by decide),
   (C10_find_jump_terminates ([] : List Int) 7).2.2 rfl⟩

end Claims
